import Mathlib

/-!
Verification of the Argus storytelling loop (src/Argus.py).

Strings are modelled as `List Char`; machine side effects (HTTP calls,
printing, sleeping) are modelled as explicit logs and oracle functions.
-/

namespace Argus

/-- ASCII restriction of Python's regex class `\w` (word characters:
letters, digits, underscore).  The claims under study do not depend on
the exact alphabet, only on the classification being a function of the
character. -/
def isWordChar (c : Char) : Bool := c.isAlpha || c.isDigit || c == '_'

/-- ASCII restriction of Python's regex class `\s` (whitespace). -/
def isSpaceChar (c : Char) : Bool := c.isWhitespace

/-- Dropping a while-prefix never lengthens a list (termination measure
for the tokenizer). -/
theorem length_dropWhile_le (p : Char → Bool) :
    ∀ cs : List Char, (cs.dropWhile p).length ≤ cs.length := by
  intro cs
  induction cs with
  | nil => simp [List.dropWhile]
  | cons c cs ih =>
    rw [List.dropWhile]
    cases p c
    · simp
    · simpa using Nat.le_succ_of_le ih

/-- The tokenizer of `display_and_send_paragraph_word_by_word` (Argus.py
line 92): `re.findall(r'\b\w+\b|\s+|[^\w\s]', paragraph)`.  Scanning left
to right, a maximal run of word characters is one match of the first
alternative (the surrounding positions are word boundaries and `\w+` is
greedy), a maximal whitespace run is one match of the second, and any
other single character matches the third; `findall` therefore splits the
text into maximal word runs, maximal whitespace runs, and single other
characters, which is what this function computes. -/
def tokenize (s : List Char) : List (List Char) :=
  match s with
  | [] => []
  | c :: cs =>
    if isWordChar c then
      (c :: cs.takeWhile isWordChar) :: tokenize (cs.dropWhile isWordChar)
    else if isSpaceChar c then
      (c :: cs.takeWhile isSpaceChar) :: tokenize (cs.dropWhile isSpaceChar)
    else
      [c] :: tokenize cs
termination_by s.length
decreasing_by
  · simpa [Nat.lt_succ_iff] using length_dropWhile_le isWordChar cs
  · simpa [Nat.lt_succ_iff] using length_dropWhile_le isSpaceChar cs
  · simp

/-- Python `sub in s` test at a single position: `s[i:i+len(sub)] == sub`. -/
def subAt (s sub : List Char) (i : Nat) : Bool := sub.isPrefixOf (s.drop i)

/-- Python `s.find(sub, start)`: the lowest index `i ≥ start` with
`s[i:i+len(sub)] == sub`, as an `Option` (`none` plays the role of -1). -/
def strFind (s sub : List Char) (start : Nat) : Option Nat :=
  (List.range (s.length + 1)).find? (fun i => decide (start ≤ i) && subAt s sub i)

/-- Python `s.rfind(sub)`: the highest index at which `sub` occurs. -/
def strRfind (s sub : List Char) : Option Nat :=
  ((List.range (s.length + 1)).filter (fun i => subAt s sub i)).getLast?

/-- The paragraph-extraction step of `generate_paragraph` (Argus.py lines
117-129).  The raw model output `new_text` is passed in explicitly: in the
source it is produced by the external call `generate_with_ollama`.
`new_text.find(". ", 150)`; on failure `new_text.rfind(".")`; slices
`new_text[:pos + 1]` keep the period. -/
def generate_paragraph (new_text : List Char) : List Char :=
  match strFind new_text ['.', ' '] 150 with
  | some paragraph_end => new_text.take (paragraph_end + 1)
  | none =>
    match strRfind new_text ['.'] with
    | some last_period => new_text.take (last_period + 1)
    | none => new_text

/-- Outcome of the HTTP POST to the Ollama endpoint as observed by
`generate_with_ollama` (Argus.py lines 41-52): either a response object
(status code plus the optional `"response"` field of the parsed JSON
body) or a raised exception, carrying its message. -/
inductive OllamaOutcome where
  | ok (status_code : Nat) (response_field : Option (List Char))
  | exn (msg : List Char)

/-- `generate_with_ollama` (Argus.py lines 27-52), with the network
outcome as an explicit input.  On status 200 it returns
`response_json.get("response", "")`; on any other status, and on any
exception, it prints a diagnostic and returns `""`. -/
def generate_with_ollama (outcome : OllamaOutcome) : List Char :=
  match outcome with
  | .ok status_code response_field =>
    if status_code == 200 then response_field.getD [] else []
  | .exn _ => []

/-- Outcome of the HTTP POST performed by `send_word_to_server`
(Argus.py lines 65-87): a response with a status code and a body text,
or one of the three caught exception kinds. -/
inductive PostOutcome where
  | ok (status_code : Nat) (body : List Char)
  | timeout
  | connectionError
  | otherExn (msg : List Char)

/-- The diagnostics `send_word_to_server` can print, one per branch of
the source (lines 75-76, 80, 83, 86). -/
inductive SendDiagnostic where
  | badStatus (status_code : Nat) (body : List Char)
  | timedOut
  | connectionFailed
  | otherError (msg : List Char)

/-- `send_word_to_server` (Argus.py lines 54-87), with the network
outcome as an explicit input.  Returns the boolean result together with
the diagnostic printed, if any: `True` with no diagnostic on status 200,
`False` with a branch-specific diagnostic otherwise. -/
def send_word_to_server (outcome : PostOutcome) : Bool × Option SendDiagnostic :=
  match outcome with
  | .ok status_code body =>
    if status_code == 200 then (true, none)
    else (false, some (.badStatus status_code body))
  | .timeout => (false, some .timedOut)
  | .connectionError => (false, some .connectionFailed)
  | .otherExn msg => (false, some (.otherError msg))

/-- In-memory state of `paragraph_based_storytelling`, together with
logs of the run's observable effects.  `seq` is `sequence_number`,
`context` is `context_paragraphs`, `total_paragraphs` the paragraph
counter; `emitted` records every token displayed by the word loop paired
with the sequence number it was assigned, `published` every invocation
of `send_word_to_server` (token and sequence number sent), and `dots`
the failure markers printed. -/
structure LoopState where
  seq : Nat
  context : List (List Char)
  total_paragraphs : Nat
  emitted : List (List Char × Nat)
  published : List (List Char × Nat)
  dots : Nat
deriving Repr, DecidableEq

/-- State at loop entry (Argus.py lines 172-187): sequence number 0,
empty context, no paragraphs, empty logs. -/
def initState : LoopState :=
  { seq := 0, context := [], total_paragraphs := 0
    emitted := [], published := [], dots := 0 }

/-- One pass of the `for word in words` body of
`display_and_send_paragraph_word_by_word` (Argus.py lines 94-103).
`enable_posting` is the global `ENABLE_POSTING`; `pub` is the oracle
giving the success of each publish attempt (the value
`send_word_to_server` returns for that token and sequence number).  The
token is sent (when posting is enabled) with the current sequence
number, a dot is printed on failure, the sequence number is incremented,
and the token is displayed. -/
def emitToken (enable_posting : Bool) (pub : List Char → Nat → Bool)
    (st : LoopState) (word : List Char) : LoopState :=
  let st1 :=
    if enable_posting then
      { st with published := st.published ++ [(word, st.seq)]
                dots := st.dots + (if pub word st.seq then 0 else 1) }
    else st
  { st1 with seq := st1.seq + 1, emitted := st1.emitted ++ [(word, st1.seq)] }

/-- `display_and_send_paragraph_word_by_word` (Argus.py lines 89-105):
tokenize the paragraph and run the word loop over the tokens.  The
updated sequence number is the `seq` field of the returned state. -/
def display_and_send_paragraph_word_by_word (enable_posting : Bool)
    (pub : List Char → Nat → Bool) (paragraph : List Char)
    (st : LoopState) : LoopState :=
  (tokenize paragraph).foldl (emitToken enable_posting pub) st

/-- The context-window update of the main loop (Argus.py lines 200-202):
append the paragraph, then keep only the last 5 entries when the length
exceeds 5 (`context_paragraphs[-5:]`). -/
def updateContext (ctx : List (List Char)) (paragraph : List Char) :
    List (List Char) :=
  let c := ctx ++ [paragraph]
  if 5 < c.length then c.drop (c.length - 5) else c

/-- The context window produced by a whole history of appends, newest
last. -/
def windowOf (hist : List (List Char)) : List (List Char) :=
  hist.foldl updateContext []

/-- The paragraph separator `"\n"` streamed at the end of each
iteration (Argus.py lines 208-210). -/
def newlineChar : Char := '\n'

/-- One iteration of the `while` body of `paragraph_based_storytelling`
(Argus.py lines 190-210), with the text returned by
`generate_with_ollama` for this iteration passed in as `raw` (the prompt
built from the context influences only that external call).  The
iteration extracts a paragraph, streams it word by word, updates the
context window, increments the paragraph counter, prints a bare newline
(which consumes no sequence number), and finally streams the
single-character paragraph `"\n"` through the same word-by-word path. -/
def stepIteration (enable_posting : Bool) (pub : List Char → Nat → Bool)
    (st : LoopState) (raw : List Char) : LoopState :=
  let paragraph := generate_paragraph raw
  let st1 := display_and_send_paragraph_word_by_word enable_posting pub paragraph st
  let st2 := { st1 with context := updateContext st1.context paragraph
                        total_paragraphs := st1.total_paragraphs + 1 }
  display_and_send_paragraph_word_by_word enable_posting pub [newlineChar] st2

/-- An uninterrupted run of the main loop over a finite list of raw
generation results (one per iteration; the time limit bounds how many
iterations happen, it does not alter any iteration's effect). -/
def runLoop (enable_posting : Bool) (pub : List Char → Nat → Bool)
    (raws : List (List Char)) (st : LoopState) : LoopState :=
  raws.foldl (stepIteration enable_posting pub) st

/-- The word loop with an external interrupt modelled by a fuel count:
`fuel` is the number of further tokens that complete their loop-body
pass before the `KeyboardInterrupt` arrives.  Returns the state, the
remaining fuel, and whether the interrupt fired.  When it fires, the
current state is kept as-is — the `except KeyboardInterrupt` handler at
Argus.py line 212 catches the exception outside the loop body, so
`sequence_number`, the logs, and all other variables keep the values
they had at the moment of interruption. -/
def emitTokensInt (enable_posting : Bool) (pub : List Char → Nat → Bool) :
    List (List Char) → LoopState → Nat → LoopState × Nat × Bool
  | [], st, fuel => (st, fuel, false)
  | _ :: _, st, 0 => (st, 0, true)
  | w :: ws, st, Nat.succ fuel =>
    emitTokensInt enable_posting pub ws (emitToken enable_posting pub st w) fuel

/-- One main-loop iteration under the interrupt model: if the interrupt
fires while streaming the paragraph, the context update, the paragraph
counter, and the newline emission do not happen. -/
def stepIterationInt (enable_posting : Bool) (pub : List Char → Nat → Bool)
    (st : LoopState) (raw : List Char) (fuel : Nat) : LoopState × Nat × Bool :=
  let paragraph := generate_paragraph raw
  match emitTokensInt enable_posting pub (tokenize paragraph) st fuel with
  | (st1, fuel1, true) => (st1, fuel1, true)
  | (st1, fuel1, false) =>
    let st2 := { st1 with context := updateContext st1.context paragraph
                          total_paragraphs := st1.total_paragraphs + 1 }
    emitTokensInt enable_posting pub (tokenize [newlineChar]) st2 fuel1

/-- A run stopped by an external interrupt after `fuel` further tokens:
iterations run until the interrupt fires (or the supply of generation
results ends), and the state at that moment is what the code after the
`try` block observes. -/
def runLoopInt (enable_posting : Bool) (pub : List Char → Nat → Bool) :
    List (List Char) → LoopState → Nat → LoopState
  | [], st, _ => st
  | r :: rs, st, fuel =>
    match stepIterationInt enable_posting pub st r fuel with
    | (st1, _, true) => st1
    | (st1, fuel1, false) => runLoopInt enable_posting pub rs st1 fuel1

/-- The data printed by the final summary (Argus.py lines 216-217):
the paragraph count, the token count (`sequence_number`, printed as
"Sent N words"), and the session id. -/
structure Summary where
  total_paragraphs : Nat
  tokens_sent : Nat
  session_id : Nat
deriving Repr, DecidableEq

/-- The summary printed after the loop exits, built from the surviving
variables (`total_paragraphs`, `sequence_number`, `session_id`). -/
def finalSummary (session_id : Nat) (st : LoopState) : Summary :=
  { total_paragraphs := st.total_paragraphs
    tokens_sent := st.seq
    session_id := session_id }

/-- Observable part of the loop state that claim C7 compares across
posting configurations: sequence counter, display log, context window
and paragraph counter (everything except the publish log and failure
markers). -/
def ObsEq (st st' : LoopState) : Prop :=
  st.seq = st'.seq ∧ st.emitted = st'.emitted ∧
  st.context = st'.context ∧ st.total_paragraphs = st'.total_paragraphs

/-! ### Tokenizer lemmas -/

theorem tokenize_nil : tokenize [] = [] := by
  simp [tokenize]

/-- C1: for every input string, concatenating in order all tokens
produced by the tokenizer (word-character runs, whitespace runs, and
single other characters) reconstructs the input exactly, with no
characters dropped or added. -/
theorem spec_c1_tokenizer_reconstructs (s : List Char) : (tokenize s).flatten = s := by
  induction s using tokenize.induct with
  | case1 => simp [tokenize]
  | case2 c cs h ih =>
    rw [tokenize]
    simp only [h, if_pos, List.flatten_cons, ih]
    simp [List.takeWhile_append_dropWhile]
  | case3 c cs h1 h2 ih =>
    rw [tokenize]
    simp only [h1, h2, if_neg, if_pos, Bool.not_eq_true, ite_false, ite_true,
      List.flatten_cons, ih]
    simp [List.takeWhile_append_dropWhile]
  | case4 c cs h1 h2 ih =>
    rw [tokenize]
    simp [h1, h2, ih]

theorem tokenize_newline : tokenize [newlineChar] = [[newlineChar]] := by
  simp [tokenize, isWordChar, isSpaceChar, newlineChar, List.takeWhile, List.dropWhile]

/-! ### Word-loop lemmas -/

theorem emitToken_seq (e : Bool) (p : List Char → Nat → Bool) (st : LoopState)
    (w : List Char) : (emitToken e p st w).seq = st.seq + 1 := by
  cases e <;> simp [emitToken]

theorem emitToken_emitted (e : Bool) (p : List Char → Nat → Bool) (st : LoopState)
    (w : List Char) : (emitToken e p st w).emitted = st.emitted ++ [(w, st.seq)] := by
  cases e <;> simp [emitToken]

theorem emitToken_context (e : Bool) (p : List Char → Nat → Bool) (st : LoopState)
    (w : List Char) : (emitToken e p st w).context = st.context := by
  cases e <;> simp [emitToken]

theorem emitToken_total (e : Bool) (p : List Char → Nat → Bool) (st : LoopState)
    (w : List Char) : (emitToken e p st w).total_paragraphs = st.total_paragraphs := by
  cases e <;> simp [emitToken]

theorem emitToken_published_disabled (p : List Char → Nat → Bool) (st : LoopState)
    (w : List Char) : (emitToken false p st w).published = st.published := by
  simp [emitToken]

theorem wordLoop_seq (e : Bool) (p : List Char → Nat → Bool) :
    ∀ (ws : List (List Char)) (st : LoopState),
      (ws.foldl (emitToken e p) st).seq = st.seq + ws.length := by
  intro ws
  induction ws with
  | nil => intro st; simp
  | cons w ws ih =>
    intro st
    rw [List.foldl_cons, ih, emitToken_seq, List.length_cons]
    omega

theorem wordLoop_emitted (e : Bool) (p : List Char → Nat → Bool) :
    ∀ (ws : List (List Char)) (st : LoopState),
      (ws.foldl (emitToken e p) st).emitted
        = st.emitted ++ ws.zip (List.range' st.seq ws.length) := by
  intro ws
  induction ws with
  | nil => intro st; simp
  | cons w ws ih =>
    intro st
    rw [List.foldl_cons, ih, emitToken_emitted, emitToken_seq, List.length_cons,
      List.range'_succ, List.zip_cons_cons, List.append_assoc]
    rfl

theorem wordLoop_context (e : Bool) (p : List Char → Nat → Bool) :
    ∀ (ws : List (List Char)) (st : LoopState),
      (ws.foldl (emitToken e p) st).context = st.context := by
  intro ws
  induction ws with
  | nil => intro st; rfl
  | cons w ws ih => intro st; rw [List.foldl_cons, ih, emitToken_context]

theorem wordLoop_total (e : Bool) (p : List Char → Nat → Bool) :
    ∀ (ws : List (List Char)) (st : LoopState),
      (ws.foldl (emitToken e p) st).total_paragraphs = st.total_paragraphs := by
  intro ws
  induction ws with
  | nil => intro st; rfl
  | cons w ws ih => intro st; rw [List.foldl_cons, ih, emitToken_total]

theorem wordLoop_published_disabled (p : List Char → Nat → Bool) :
    ∀ (ws : List (List Char)) (st : LoopState),
      (ws.foldl (emitToken false p) st).published = st.published := by
  intro ws
  induction ws with
  | nil => intro st; rfl
  | cons w ws ih => intro st; rw [List.foldl_cons, ih, emitToken_published_disabled]

/-! ### Iteration and run lemmas -/

theorem generate_paragraph_nil : generate_paragraph [] = [] := rfl

theorem stepIteration_seq (e : Bool) (p : List Char → Nat → Bool) (st : LoopState)
    (raw : List Char) :
    (stepIteration e p st raw).seq
      = st.seq + (tokenize (generate_paragraph raw)).length + 1 := by
  unfold stepIteration display_and_send_paragraph_word_by_word
  rw [wordLoop_seq, tokenize_newline]
  simp only [List.length_cons, List.length_nil]
  rw [wordLoop_seq]

theorem stepIteration_total (e : Bool) (p : List Char → Nat → Bool) (st : LoopState)
    (raw : List Char) :
    (stepIteration e p st raw).total_paragraphs = st.total_paragraphs + 1 := by
  unfold stepIteration display_and_send_paragraph_word_by_word
  rw [wordLoop_total]
  simp only []
  rw [wordLoop_total]

theorem stepIteration_emitted (e : Bool) (p : List Char → Nat → Bool) (st : LoopState)
    (raw : List Char) :
    (stepIteration e p st raw).emitted
      = st.emitted
        ++ (tokenize (generate_paragraph raw)).zip
             (List.range' st.seq (tokenize (generate_paragraph raw)).length)
        ++ [([newlineChar], st.seq + (tokenize (generate_paragraph raw)).length)] := by
  unfold stepIteration display_and_send_paragraph_word_by_word
  rw [wordLoop_emitted, tokenize_newline]
  simp only []
  rw [wordLoop_emitted, wordLoop_seq]
  simp [List.range'_one]

theorem stepIteration_published_disabled (p : List Char → Nat → Bool) (st : LoopState)
    (raw : List Char) :
    (stepIteration false p st raw).published = st.published := by
  unfold stepIteration display_and_send_paragraph_word_by_word
  rw [wordLoop_published_disabled]
  simp only []
  rw [wordLoop_published_disabled]

theorem runLoop_published_disabled (p : List Char → Nat → Bool) :
    ∀ (raws : List (List Char)) (st : LoopState),
      (runLoop false p raws st).published = st.published := by
  intro raws
  induction raws with
  | nil => intro st; rfl
  | cons r rs ih =>
    intro st
    unfold runLoop at *
    rw [List.foldl_cons, ih, stepIteration_published_disabled]

/-- Invariant behind claim C2: the sequence numbers in the display log
are exactly `0, 1, ..., seq - 1`, in order. -/
theorem wordLoop_seq_numbers (e : Bool) (p : List Char → Nat → Bool)
    (ws : List (List Char)) (st : LoopState)
    (h : st.emitted.map Prod.snd = List.range' 0 st.seq) :
    (ws.foldl (emitToken e p) st).emitted.map Prod.snd
      = List.range' 0 (ws.foldl (emitToken e p) st).seq := by
  rw [wordLoop_emitted, wordLoop_seq, List.map_append, h,
    List.map_snd_zip _ _ (by simp)]
  have hap := List.range'_append 0 st.seq ws.length 1
  simp only [Nat.zero_add, Nat.one_mul] at hap
  rw [Nat.add_comm st.seq ws.length, ← hap]

theorem stepIteration_seq_numbers (e : Bool) (p : List Char → Nat → Bool)
    (st : LoopState) (raw : List Char)
    (h : st.emitted.map Prod.snd = List.range' 0 st.seq) :
    (stepIteration e p st raw).emitted.map Prod.snd
      = List.range' 0 (stepIteration e p st raw).seq := by
  unfold stepIteration display_and_send_paragraph_word_by_word
  apply wordLoop_seq_numbers
  exact wordLoop_seq_numbers e p _ st h

theorem runLoop_seq_numbers (e : Bool) (p : List Char → Nat → Bool) :
    ∀ (raws : List (List Char)) (st : LoopState),
      st.emitted.map Prod.snd = List.range' 0 st.seq →
      (runLoop e p raws st).emitted.map Prod.snd
        = List.range' 0 (runLoop e p raws st).seq := by
  intro raws
  induction raws with
  | nil => intro st h; exact h
  | cons r rs ih =>
    intro st h
    unfold runLoop at *
    rw [List.foldl_cons]
    exact ih _ (stepIteration_seq_numbers e p st r h)

/-! ### Posting-independence lemmas (for claim C7) -/

theorem obsEq_emitToken (e e' : Bool) (p p' : List Char → Nat → Bool)
    {st st' : LoopState} (w : List Char) (h : ObsEq st st') :
    ObsEq (emitToken e p st w) (emitToken e' p' st' w) := by
  obtain ⟨h1, h2, h3, h4⟩ := h
  refine ⟨?_, ?_, ?_, ?_⟩
  · rw [emitToken_seq, emitToken_seq, h1]
  · rw [emitToken_emitted, emitToken_emitted, h1, h2]
  · rw [emitToken_context, emitToken_context, h3]
  · rw [emitToken_total, emitToken_total, h4]

theorem obsEq_wordLoop (e e' : Bool) (p p' : List Char → Nat → Bool) :
    ∀ (ws : List (List Char)) {st st' : LoopState}, ObsEq st st' →
      ObsEq (ws.foldl (emitToken e p) st) (ws.foldl (emitToken e' p') st') := by
  intro ws
  induction ws with
  | nil => intro st st' h; exact h
  | cons w ws ih =>
    intro st st' h
    rw [List.foldl_cons, List.foldl_cons]
    exact ih (obsEq_emitToken e e' p p' w h)

theorem obsEq_stepIteration (e e' : Bool) (p p' : List Char → Nat → Bool)
    {st st' : LoopState} (raw : List Char) (h : ObsEq st st') :
    ObsEq (stepIteration e p st raw) (stepIteration e' p' st' raw) := by
  unfold stepIteration display_and_send_paragraph_word_by_word
  apply obsEq_wordLoop
  have hmid := obsEq_wordLoop e e' p p' (tokenize (generate_paragraph raw)) h
  obtain ⟨h1, h2, h3, h4⟩ := hmid
  exact ⟨h1, h2, by simp only [h3], by simp only [h4]⟩

theorem obsEq_runLoop (e e' : Bool) (p p' : List Char → Nat → Bool) :
    ∀ (raws : List (List Char)) {st st' : LoopState}, ObsEq st st' →
      ObsEq (runLoop e p raws st) (runLoop e' p' raws st') := by
  intro raws
  induction raws with
  | nil => intro st st' h; exact h
  | cons r rs ih =>
    intro st st' h
    unfold runLoop at *
    rw [List.foldl_cons, List.foldl_cons]
    exact ih (obsEq_stepIteration e e' p p' r h)

/-! ### Interrupt-model lemmas (for claim C6) -/

theorem emitTokensInt_counter (e : Bool) (p : List Char → Nat → Bool) :
    ∀ (ws : List (List Char)) (st : LoopState) (fuel : Nat),
      st.seq = st.emitted.length →
      ((emitTokensInt e p ws st fuel).1).seq
        = ((emitTokensInt e p ws st fuel).1).emitted.length := by
  intro ws
  induction ws with
  | nil => intro st fuel h; exact h
  | cons w ws ih =>
    intro st fuel h
    cases fuel with
    | zero => exact h
    | succ fuel =>
      rw [emitTokensInt]
      apply ih
      rw [emitToken_seq, emitToken_emitted, List.length_append, h]
      rfl

theorem stepIterationInt_counter (e : Bool) (p : List Char → Nat → Bool)
    (st : LoopState) (raw : List Char) (fuel : Nat)
    (h : st.seq = st.emitted.length) :
    ((stepIterationInt e p st raw fuel).1).seq
      = ((stepIterationInt e p st raw fuel).1).emitted.length := by
  have h1 := emitTokensInt_counter e p (tokenize (generate_paragraph raw)) st fuel h
  simp only [stepIterationInt]
  rcases hE : emitTokensInt e p (tokenize (generate_paragraph raw)) st fuel
    with ⟨st1, fuel1, b⟩
  rw [hE] at h1
  cases b with
  | true => exact h1
  | false => exact emitTokensInt_counter e p (tokenize [newlineChar]) _ fuel1 h1

theorem runLoopInt_counter (e : Bool) (p : List Char → Nat → Bool) :
    ∀ (raws : List (List Char)) (st : LoopState) (fuel : Nat),
      st.seq = st.emitted.length →
      (runLoopInt e p raws st fuel).seq
        = (runLoopInt e p raws st fuel).emitted.length := by
  intro raws
  induction raws with
  | nil => intro st fuel h; exact h
  | cons r rs ih =>
    intro st fuel h
    have h1 := stepIterationInt_counter e p st r fuel h
    rw [runLoopInt]
    rcases hE : stepIterationInt e p st r fuel with ⟨st1, fuel1, b⟩
    rw [hE] at h1
    cases b with
    | true => exact h1
    | false => exact ih st1 fuel1 h1

/-! ### Substring-search lemmas (for claims C3 and C4) -/

theorem subAt_false_of_le {s sub : List Char} {i : Nat}
    (hs : s.length ≤ i) (hne : sub ≠ []) : subAt s sub i = false := by
  unfold subAt
  rw [List.drop_eq_nil_of_le hs]
  cases sub with
  | nil => exact absurd rfl hne
  | cons a l => rfl

theorem subAt_add_length_le {s sub : List Char} {i : Nat}
    (h : subAt s sub i = true) (hne : sub ≠ []) : i + sub.length ≤ s.length := by
  have hp : sub <+: s.drop i := List.isPrefixOf_iff_prefix.mp h
  have h1 : sub.length ≤ s.length - i := by
    have := hp.length_le
    rwa [List.length_drop] at this
  have h2 : i < s.length := by
    by_contra hc
    push_neg at hc
    rw [subAt_false_of_le hc hne] at h
    cases h
  omega

theorem find?_range_eq_some {f : Nat → Bool} :
    ∀ {n i : Nat}, i < n → f i = true → (∀ j, j < i → f j = false) →
      (List.range n).find? f = some i := by
  intro n
  induction n with
  | zero => intro i h; omega
  | succ n ih =>
    intro i h1 h2 h3
    rw [List.range_succ, List.find?_append]
    rcases Nat.lt_or_ge i n with hin | hin
    · rw [ih hin h2 h3]
      rfl
    · have hieq : i = n := by omega
      subst hieq
      have hnone : (List.range i).find? f = none := by
        rw [List.find?_eq_none]
        intro x hx
        simp [h3 x (List.mem_range.mp hx)]
      rw [hnone]
      simp [List.find?, h2]

theorem find?_range_eq_none {f : Nat → Bool} {n : Nat}
    (h : ∀ j, j < n → f j = false) : (List.range n).find? f = none := by
  rw [List.find?_eq_none]
  intro x hx
  simp [h x (List.mem_range.mp hx)]

theorem filter_range_getLast?_eq_some {f : Nat → Bool} :
    ∀ {n i : Nat}, i < n → f i = true → (∀ j, i < j → j < n → f j = false) →
      ((List.range n).filter f).getLast? = some i := by
  intro n
  induction n with
  | zero => intro i h; omega
  | succ n ih =>
    intro i h1 h2 h3
    rw [List.range_succ, List.filter_append]
    cases hfn : f n with
    | false =>
      have hin : i < n := by
        rcases Nat.lt_or_ge i n with hlt | hge
        · exact hlt
        · have : i = n := by omega
          subst this
          rw [hfn] at h2
          cases h2
      rw [show List.filter f [n] = [] by simp [hfn], List.append_nil]
      exact ih hin h2 fun j ha hb => h3 j ha (by omega)
    | true =>
      have hieq : i = n := by
        by_contra hne
        have hfalse := h3 n (by omega) (by omega)
        rw [hfn] at hfalse
        cases hfalse
      subst hieq
      rw [show List.filter f [i] = [i] by simp [hfn]]
      exact List.getLast?_concat _

theorem filter_range_eq_nil {f : Nat → Bool} {n : Nat}
    (h : ∀ j, j < n → f j = false) : (List.range n).filter f = [] := by
  rw [List.filter_eq_nil_iff]
  intro x hx
  simp [h x (List.mem_range.mp hx)]

theorem strFind_eq_some {s sub : List Char} {start p : Nat} (hne : sub ≠ [])
    (h1 : start ≤ p) (h2 : subAt s sub p = true)
    (h3 : ∀ q, start ≤ q → q < p → subAt s sub q = false) :
    strFind s sub start = some p := by
  apply find?_range_eq_some
  · have := subAt_add_length_le h2 hne
    have hpos : 0 < sub.length := by
      cases sub with
      | nil => exact absurd rfl hne
      | cons a l => simp
    omega
  · simp [h1, h2]
  · intro j hj
    by_cases hstart : start ≤ j
    · simp [h3 j hstart hj]
    · simp [hstart]

theorem strFind_eq_none {s sub : List Char} {start : Nat} (hne : sub ≠ [])
    (h : ∀ q, q < s.length → start ≤ q → subAt s sub q = false) :
    strFind s sub start = none := by
  apply find?_range_eq_none
  intro j hj
  by_cases hstart : start ≤ j
  · rcases Nat.lt_or_ge j s.length with hlt | hge
    · simp [h j hlt hstart]
    · simp [subAt_false_of_le hge hne]
  · simp [hstart]

theorem strRfind_eq_some {s sub : List Char} {q : Nat} (hne : sub ≠ [])
    (h1 : subAt s sub q = true)
    (h2 : ∀ r, q < r → r < s.length → subAt s sub r = false) :
    strRfind s sub = some q := by
  apply filter_range_getLast?_eq_some
  · have := subAt_add_length_le h1 hne
    have hpos : 0 < sub.length := by
      cases sub with
      | nil => exact absurd rfl hne
      | cons a l => simp
    omega
  · exact h1
  · intro j ha hb
    rcases Nat.lt_or_ge j s.length with hlt | hge
    · exact h2 j ha hlt
    · exact subAt_false_of_le hge hne

theorem strRfind_eq_none {s sub : List Char} (hne : sub ≠ [])
    (h : ∀ i, i < s.length → subAt s sub i = false) :
    strRfind s sub = none := by
  unfold strRfind
  rw [filter_range_eq_nil]
  · rfl
  · intro j hj
    rcases Nat.lt_or_ge j s.length with hlt | hge
    · exact h j hlt
    · exact subAt_false_of_le hge hne

/-! ### Context-window lemmas (for claim C5) -/

theorem updateContext_eq_drop (ctx : List (List Char)) (p : List Char) :
    updateContext ctx p = (ctx ++ [p]).drop (ctx.length + 1 - 5) := by
  unfold updateContext
  have hl : (ctx ++ [p]).length = ctx.length + 1 := by simp
  by_cases h : 5 < (ctx ++ [p]).length
  · rw [if_pos h, hl]
  · rw [if_neg h]
    rw [hl] at h
    rw [show ctx.length + 1 - 5 = 0 by omega, List.drop_zero]

theorem windowOf_eq_drop :
    ∀ hist : List (List Char), windowOf hist = hist.drop (hist.length - 5) := by
  intro hist
  induction hist using List.reverseRecOn with
  | nil => rfl
  | append_singleton hist p ih =>
    unfold windowOf at ih ⊢
    rw [List.foldl_append, List.foldl_cons, List.foldl_nil, ih,
      updateContext_eq_drop, List.length_drop,
      ← List.drop_append_of_le_length (by omega : hist.length - 5 ≤ hist.length),
      List.drop_drop]
    congr 1
    simp
    omega

/-! ### Claim theorems -/

/-- C2: the word loop advances the sequence number by exactly one per
emitted token regardless of publish success or failure:
`display_and_send_paragraph_word_by_word` returns its input sequence
number plus the number of tokens of its paragraph, the i-th token is
paired with `input sequence number + i`, and across an entire run
starting from sequence number 0 the numbers assigned to the displayed
tokens form the contiguous range `0 .. N-1`. -/
theorem spec_c2_sequence_contiguous (enable_posting : Bool)
    (pub : List Char → Nat → Bool) :
    (∀ (paragraph : List Char) (st : LoopState),
      (display_and_send_paragraph_word_by_word enable_posting pub paragraph st).seq
        = st.seq + (tokenize paragraph).length ∧
      (display_and_send_paragraph_word_by_word enable_posting pub paragraph st).emitted
        = st.emitted ++ (tokenize paragraph).zip
            (List.range' st.seq (tokenize paragraph).length)) ∧
    ∀ raws : List (List Char),
      (runLoop enable_posting pub raws initState).emitted.map Prod.snd
        = List.range (runLoop enable_posting pub raws initState).emitted.length := by
  constructor
  · intro paragraph st
    exact ⟨wordLoop_seq enable_posting pub (tokenize paragraph) st,
      wordLoop_emitted enable_posting pub (tokenize paragraph) st⟩
  · intro raws
    have h := runLoop_seq_numbers enable_posting pub raws initState rfl
    have hlen : (runLoop enable_posting pub raws initState).emitted.length
        = (runLoop enable_posting pub raws initState).seq := by
      have hc := congrArg List.length h
      simpa using hc
    rw [List.range_eq_range', hlen]
    exact h

/-- C3: when the raw text contains a period immediately followed by a
space, with the period at offset 150 or later, `generate_paragraph`
returns exactly the prefix of the text ending at and including the first
such period. -/
theorem spec_c3_paragraph_cut_at_first_sentence_end (text : List Char) (p : Nat)
    (h1 : 150 ≤ p) (h2 : subAt text ['.', ' '] p = true)
    (h3 : ∀ q, q < p → 150 ≤ q → subAt text ['.', ' '] q = false) :
    generate_paragraph text = text.take (p + 1) := by
  unfold generate_paragraph
  rw [strFind_eq_some (by simp) h1 h2 fun q ha hb => h3 q hb ha]

/-- Witness for C3: a text of 150 `a`s followed by `". b"` is cut right
after the period at offset 150. -/
theorem spec_c3_witness :
    150 ≤ 150 ∧
    subAt (List.replicate 150 'a' ++ ['.', ' ', 'b']) ['.', ' '] 150 = true ∧
    (List.replicate 150 'a' ++ ['.', ' ', 'b']).take 151
      = List.replicate 150 'a' ++ ['.'] ∧
    generate_paragraph (List.replicate 150 'a' ++ ['.', ' ', 'b'])
      = (List.replicate 150 'a' ++ ['.', ' ', 'b']).take 151 :=
  ⟨Nat.le_refl 150, by decide, by decide,
   spec_c3_paragraph_cut_at_first_sentence_end
     (List.replicate 150 'a' ++ ['.', ' ', 'b']) 150 (Nat.le_refl 150) (by decide)
     (fun q ha hb => absurd (Nat.lt_of_le_of_lt hb ha) (Nat.lt_irrefl 150))⟩

/-- C4: when no period-followed-by-space occurs at offset 150 or later,
`generate_paragraph` falls back to the last period anywhere in the text
(returning the prefix ending at and including it), and when no period
occurs at all it returns the raw text unchanged. -/
theorem spec_c4_paragraph_fallback (text : List Char)
    (hno : ∀ q, q < text.length → 150 ≤ q → subAt text ['.', ' '] q = false) :
    ((∀ i, i < text.length → subAt text ['.'] i = false) →
       generate_paragraph text = text) ∧
    ∀ q, q < text.length → subAt text ['.'] q = true →
      (∀ r, r < text.length → q < r → subAt text ['.'] r = false) →
      generate_paragraph text = text.take (q + 1) := by
  have hfind : strFind text ['.', ' '] 150 = none := strFind_eq_none (by simp) hno
  constructor
  · intro hdot
    unfold generate_paragraph
    rw [hfind, strRfind_eq_none (by simp) hdot]
  · intro q hq hsub hlast
    unfold generate_paragraph
    rw [hfind, strRfind_eq_some (by simp) hsub fun r ha hb => hlast r hb ha]

/-- Witness for C4: a text with no period is returned unchanged, and a
short text with two periods is cut after the last one. -/
theorem spec_c4_witness :
    generate_paragraph ['a', 'b', 'c'] = ['a', 'b', 'c'] ∧
    generate_paragraph ['a', '.', 'b', '.', 'c'] = ['a', '.', 'b', '.'] := by
  constructor
  · exact (spec_c4_paragraph_fallback ['a', 'b', 'c'] (by decide)).1 (by decide)
  · have h := (spec_c4_paragraph_fallback ['a', '.', 'b', '.', 'c'] (by decide)).2
      3 (by decide) (by decide) (by decide)
    simpa using h

/-- C5: appending a paragraph to the context window yields length
`min (previous length + 1) 5`; the result keeps the newest entries (it
is the maximal length-≤-5 suffix of the appended list, so truncation
drops exactly the earliest entries), and over a whole history of appends
the window is always the length-≤-5 suffix of that history. -/
theorem spec_c5_context_window (ctx : List (List Char)) (p : List Char) :
    (updateContext ctx p).length = min (ctx.length + 1) 5 ∧
    updateContext ctx p = (ctx ++ [p]).drop (ctx.length + 1 - 5) ∧
    ∀ hist : List (List Char), windowOf hist = hist.drop (hist.length - 5) := by
  refine ⟨?_, updateContext_eq_drop ctx p, windowOf_eq_drop⟩
  rw [updateContext_eq_drop, List.length_drop]
  simp only [List.length_append, List.length_cons, List.length_nil]
  omega

/-- C6: when an external interrupt stops the run after any number of
fully processed tokens (also mid-paragraph), the final summary reports
as its token count exactly the number of tokens emitted before the
interrupt, and reports the session id of the run. -/
theorem spec_c6_interrupt_preserves_counters (enable_posting : Bool)
    (pub : List Char → Nat → Bool) (session_id : Nat)
    (raws : List (List Char)) (fuel : Nat) :
    (finalSummary session_id
        (runLoopInt enable_posting pub raws initState fuel)).tokens_sent
      = (runLoopInt enable_posting pub raws initState fuel).emitted.length ∧
    (finalSummary session_id
        (runLoopInt enable_posting pub raws initState fuel)).session_id
      = session_id :=
  ⟨runLoopInt_counter enable_posting pub raws initState fuel rfl, rfl⟩

/-- C7: with posting disabled the publisher is never invoked (the
publish log of the whole run is empty) while the displayed,
sequence-numbered token stream and the sequence counter are identical to
those of a run with posting enabled, whatever the publish outcomes of
that run; in particular the reported total token count is the same. -/
theorem spec_c7_posting_disabled_frame (pub pub2 : List Char → Nat → Bool)
    (raws : List (List Char)) (session_id : Nat) :
    (runLoop false pub raws initState).published = [] ∧
    (runLoop false pub raws initState).emitted
      = (runLoop true pub2 raws initState).emitted ∧
    (runLoop false pub raws initState).seq
      = (runLoop true pub2 raws initState).seq ∧
    (finalSummary session_id (runLoop false pub raws initState)).tokens_sent
      = (finalSummary session_id (runLoop true pub2 raws initState)).tokens_sent := by
  have hobs := obsEq_runLoop false true pub pub2 raws
    (⟨rfl, rfl, rfl, rfl⟩ : ObsEq initState initState)
  obtain ⟨h1, h2, h3, h4⟩ := hobs
  exact ⟨runLoop_published_disabled pub raws initState, h2, h1, h1⟩

/-- C8: the inference client returns the `response` field on a status
200 response (empty when the field is absent), and returns the empty
string on any non-success status and on any transport exception, never
propagating a failure. -/
theorem spec_c8_ollama_error_handling :
    (∀ f : Option (List Char), generate_with_ollama (.ok 200 f) = f.getD []) ∧
    (∀ (sc : Nat) (f : Option (List Char)), sc ≠ 200 →
       generate_with_ollama (.ok sc f) = []) ∧
    (∀ msg : List Char, generate_with_ollama (.exn msg) = []) := by
  refine ⟨fun f => rfl, fun sc f h => ?_, fun msg => rfl⟩
  simp [generate_with_ollama, h]

/-- Witness for C8 at concrete outcomes: present field, absent field,
non-success status, exception. -/
theorem spec_c8_witness :
    generate_with_ollama (.ok 200 (some ['h', 'i'])) = ['h', 'i'] ∧
    generate_with_ollama (.ok 200 none) = [] ∧
    (500 : Nat) ≠ 200 ∧
    generate_with_ollama (.ok 500 (some ['h', 'i'])) = [] ∧
    generate_with_ollama (.exn ['e', 'r', 'r']) = [] :=
  ⟨spec_c8_ollama_error_handling.1 (some ['h', 'i']),
   spec_c8_ollama_error_handling.1 none,
   by decide,
   spec_c8_ollama_error_handling.2.1 500 (some ['h', 'i']) (by decide),
   spec_c8_ollama_error_handling.2.2 ['e', 'r', 'r']⟩

/-- C9: the publisher returns `true` exactly when the endpoint answers
with status 200; timeout, connection failure and other errors all return
`false`, differing from one another only in the diagnostic they
print. -/
theorem spec_c9_publisher_error_handling :
    (∀ outcome : PostOutcome,
      ((send_word_to_server outcome).1 = true ↔ ∃ body, outcome = .ok 200 body)) ∧
    ((send_word_to_server .timeout).1 = false ∧
     (send_word_to_server .connectionError).1 = false ∧
     ∀ msg, (send_word_to_server (.otherExn msg)).1 = false) ∧
    ((send_word_to_server .timeout).2 = some .timedOut ∧
     (send_word_to_server .connectionError).2 = some .connectionFailed ∧
     ∀ msg, (send_word_to_server (.otherExn msg)).2 = some (.otherError msg)) := by
  refine ⟨?_, ⟨rfl, rfl, fun msg => rfl⟩, ⟨rfl, rfl, fun msg => rfl⟩⟩
  intro outcome
  cases outcome with
  | ok sc body =>
    by_cases h : sc = 200
    · subst h
      exact ⟨fun _ => ⟨body, rfl⟩, fun _ => rfl⟩
    · have hfst : (send_word_to_server (.ok sc body)).1 = false := by
        simp [send_word_to_server, h]
      rw [hfst]
      simp only [Bool.false_eq_true, false_iff]
      rintro ⟨b, hb⟩
      injection hb with hsc hbody
      exact h hsc
  | timeout => simp [send_word_to_server]
  | connectionError => simp [send_word_to_server]
  | otherExn msg => simp [send_word_to_server]

/-- C10: each loop iteration advances the sequence number by the number
of tokens of the extracted paragraph plus one: the separator `"\n"` is
tokenized as exactly one token and consumes exactly one sequence number;
an iteration whose generation result is empty extracts the empty
paragraph, emits zero paragraph tokens, still advances the sequence
number by exactly one, and still increments the paragraph counter. -/
theorem spec_c10_iteration_advance (enable_posting : Bool)
    (pub : List Char → Nat → Bool) (st : LoopState) (raw : List Char) :
    (stepIteration enable_posting pub st raw).seq
      = st.seq + ((tokenize (generate_paragraph raw)).length + 1) ∧
    (stepIteration enable_posting pub st raw).total_paragraphs
      = st.total_paragraphs + 1 ∧
    tokenize [newlineChar] = [[newlineChar]] ∧
    generate_paragraph [] = [] ∧
    tokenize [] = [] ∧
    (stepIteration enable_posting pub st []).seq = st.seq + 1 ∧
    (stepIteration enable_posting pub st []).emitted
      = st.emitted ++ [([newlineChar], st.seq)] := by
  refine ⟨?_, stepIteration_total enable_posting pub st raw, tokenize_newline,
    generate_paragraph_nil, tokenize_nil, ?_, ?_⟩
  · rw [stepIteration_seq]
    omega
  · rw [stepIteration_seq, generate_paragraph_nil, tokenize_nil]
    simp
  · rw [stepIteration_emitted, generate_paragraph_nil, tokenize_nil]
    simp

end Argus
